import Mathlib

/-!
# Verification of the snug context packer

A shallow embedding, in Lean 4, of the core pipeline of the `snug` context
optimizer: priority scoring, recency bias, greedy knapsack packing,
dependency-constraint enforcement, position-aware placement, and the
orchestrating `ContextOptimizer.pack` method, together with the report
builders (stats, warnings, cost estimation).

JavaScript numbers are modelled as exact arithmetic: token counts and
budgets as `Int`, scores as `JScore` (a rational extended with the
`Infinity` sentinel used for `required` items).  `Array.prototype.sort`
(guaranteed stable) is modelled by `List.insertionSort` with the
"may precede" relation derived from the source's comparator.
-/

namespace Snug

/-- Priority levels for context items (`types.ts`). -/
inductive Priority where
  | required
  | high
  | medium
  | low
deriving DecidableEq, Repr

/-- A JavaScript numeric score: either the `Infinity` sentinel (assigned to
`required` items by `scorePriority`) or a finite number, modelled as `ℚ`. -/
inductive JScore where
  | inf
  | fin (q : ℚ)
deriving DecidableEq, Repr

namespace JScore

/-- Strict comparison of scores, with `Infinity` above every finite value.
This is the order the source's subtraction-based comparators induce. -/
def lt : JScore → JScore → Bool
  | .fin a, .fin b => decide (a < b)
  | .fin _, .inf => true
  | .inf, _ => false

/-- Multiply a score by a (positive) rational factor; `Infinity` is absorbing,
matching JavaScript's `Infinity * f = Infinity` for `f > 0`. -/
def scale : JScore → ℚ → JScore
  | .inf, _ => .inf
  | .fin q, f => .fin (q * f)

/-- Order-embedding of `JScore` into `WithTop ℚ`, used to borrow the linear
order reasoning. -/
def toWT : JScore → WithTop ℚ
  | .inf => ⊤
  | .fin q => (q : WithTop ℚ)

end JScore

/-- Position tag in the packed context (`types.ts`). -/
inductive Placement where
  | beginning
  | middle
  | sEnd
deriving DecidableEq, Repr

/-- A context item (`ContextItem` in `types.ts`).  The opaque `value` payload
is modelled as a string; it is carried through unchanged and never inspected. -/
structure Item where
  id : String
  source : String
  content : String
  value : String
  tokens : Int
  priority : Priority
  score : JScore
  index : Int
deriving DecidableEq, Repr

/-- A dropped-item record (`DroppedItem` in `types.ts`). -/
structure Dropped where
  source : String
  id : String
  tokens : Int
  score : JScore
  reason : String
deriving DecidableEq, Repr

/-- An admitted item with its placement tag (`PackedItem` in `types.ts`). -/
structure PackedItem where
  id : String
  source : String
  content : String
  value : String
  tokens : Int
  score : JScore
  placement : Placement
deriving DecidableEq, Repr

/-- Running token total of a list of items, as in the source's
`reduce((sum, i) => sum + i.tokens, 0)`. -/
def sumTokens (l : List Item) : Int :=
  l.foldl (fun s i => s + i.tokens) 0

/-! ## `score/priority.ts` -/

/-- Map a priority tier to a numeric base score (`PRIORITY_SCORES`). -/
def scorePriority : Priority → JScore
  | .required => .inf
  | .high => .fin 100
  | .medium => .fin 50
  | .low => .fin 10

/-! ## `score/recency.ts` -/

/-- The linear decay factor for position `i` in a list of `total` items:
`minFactor + (1 - minFactor) * i / (total - 1)`. -/
def recFactor (minFactor : ℚ) (total : ℕ) (i : ℕ) : ℚ :=
  minFactor + (1 - minFactor) * i / ((total : ℚ) - 1)

/-- One iteration of `applyRecencyBias`'s loop: decay a non-`required`
item's score by its position's factor; `required` items are skipped. -/
def recStep (minFactor : ℚ) (total : ℕ) (i : ℕ) (it : Item) : Item :=
  if it.priority = .required then it
  else { it with score := it.score.scale (recFactor minFactor total i) }

/-- The loop of `applyRecencyBias` over the item list, carrying the
position index. -/
def recencyMap (minFactor : ℚ) (total : ℕ) : ℕ → List Item → List Item
  | _, [] => []
  | i, it :: rest =>
    recStep minFactor total i it :: recencyMap minFactor total (i + 1) rest

/-- Model of `applyRecencyBias` from `score/recency.ts`: linear decay across an
ordered list, skipping `required` items; no-op for lists of length ≤ 1.
The in-place mutation of the source is modelled by returning the updated
list. -/
def applyRecencyBias (items : List Item) (minFactor : ℚ := 1/10) : List Item :=
  if items.length ≤ 1 then items
  else recencyMap minFactor items.length 0 items

/-! ## `pack/greedy.ts` -/

/-- The packer's output (`PackDecision`). -/
structure PackDecision where
  included : List Item
  dropped : List Dropped
  totalTokens : Int
deriving DecidableEq, Repr

/-- The dropped-item record written by `greedyPack` for an excluded optional
item. -/
def dropOf (it : Item) : Dropped :=
  { source := it.source, id := it.id, tokens := it.tokens, score := it.score,
    reason := "budget exhausted" }

/-- The "may precede" relation induced by the source's optional-item
comparator `(a, b) => b.score - a.score || a.tokens - b.tokens`:
`a` may come before `b` iff `a`'s score is strictly greater, or the scores
are tied and `a`'s token cost is at most `b`'s.  A stable sort with this
relation is exactly what `Array.prototype.sort` produces. -/
def optLE (a b : Item) : Prop :=
  JScore.lt b.score a.score = true ∨
    (JScore.lt a.score b.score = false ∧ JScore.lt b.score a.score = false ∧
      a.tokens ≤ b.tokens)

instance : DecidableRel optLE := fun a b => by
  unfold optLE; infer_instance

instance : IsTotal Item optLE where
  total a b := by
    have hiff : ∀ x y : JScore, JScore.lt x y = true ↔
        JScore.toWT x < JScore.toWT y := fun x y => by
      cases x <;> cases y <;>
        simp [JScore.lt, JScore.toWT, WithTop.coe_lt_coe, WithTop.coe_lt_top,
          lt_irrefl]
    unfold optLE
    rcases lt_trichotomy (JScore.toWT a.score) (JScore.toWT b.score) with h | h | h
    · right; left
      exact ((hiff _ _).2 h)
    · rcases le_total a.tokens b.tokens with ht | ht
      · left; right
        refine ⟨?_, ?_, ht⟩ <;>
          { rw [Bool.eq_false_iff, Ne, hiff]; simp [h] }
      · right; right
        refine ⟨?_, ?_, ht⟩ <;>
          { rw [Bool.eq_false_iff, Ne, hiff]; simp [h] }
    · left; left
      exact ((hiff _ _).2 h)

instance : IsTrans Item optLE where
  trans a b c hab hbc := by
    unfold optLE at *
    have hiff : ∀ x y : JScore, JScore.lt x y = true ↔
        JScore.toWT x < JScore.toWT y := fun x y => by
      cases x <;> cases y <;>
        simp [JScore.lt, JScore.toWT, WithTop.coe_lt_coe, WithTop.coe_lt_top,
          lt_irrefl]
    rcases hab with hab | ⟨hab1, hab2, hab3⟩ <;>
      rcases hbc with hbc | ⟨hbc1, hbc2, hbc3⟩
    · left
      exact (hiff _ _).2 (lt_trans ((hiff _ _).1 hbc) ((hiff _ _).1 hab))
    · have h1 : ¬ JScore.toWT b.score < JScore.toWT c.score := by
        rw [← hiff]; simp [hbc1]
      have h2 : ¬ JScore.toWT c.score < JScore.toWT b.score := by
        rw [← hiff]; simp [hbc2]
      have heq : JScore.toWT b.score = JScore.toWT c.score :=
        le_antisymm (not_lt.1 h2) (not_lt.1 h1)
      left
      exact (hiff _ _).2 (heq ▸ (hiff _ _).1 hab)
    · have h1 : ¬ JScore.toWT a.score < JScore.toWT b.score := by
        rw [← hiff]; simp [hab1]
      have h2 : ¬ JScore.toWT b.score < JScore.toWT a.score := by
        rw [← hiff]; simp [hab2]
      have heq : JScore.toWT a.score = JScore.toWT b.score :=
        le_antisymm (not_lt.1 h2) (not_lt.1 h1)
      left
      exact (hiff _ _).2 (heq ▸ (hiff _ _).1 hbc)
    · right
      have h1 : JScore.lt a.score c.score = false := by
        rw [Bool.eq_false_iff, Ne, hiff] at hab1 hab2 hbc1 hbc2 ⊢
        intro h
        have hbc' : ¬ JScore.toWT b.score < JScore.toWT c.score := hbc1
        have : JScore.toWT a.score = JScore.toWT b.score :=
          le_antisymm (not_lt.1 hab2) (not_lt.1 hab1)
        exact hbc' (this ▸ h)
      have h2 : JScore.lt c.score a.score = false := by
        rw [Bool.eq_false_iff, Ne, hiff] at hab1 hab2 hbc1 hbc2 ⊢
        intro h
        have : JScore.toWT b.score = JScore.toWT c.score :=
          le_antisymm (not_lt.1 hbc2) (not_lt.1 hbc1)
        exact hab2 (this ▸ h)
      exact ⟨h1, h2, le_trans hab3 hbc3⟩

/-- The sort of the optional items in `greedyPack`
(`optional.sort((a, b) => b.score - a.score || a.tokens - b.tokens)`),
modelled as a stable insertion sort with the comparator's "may precede"
relation. -/
def sortOptional (l : List Item) : List Item :=
  l.insertionSort optLE

/-- The greedy admission loop of `greedyPack`: walk the sorted optional
items, admitting an item when the running total stays within budget and
otherwise recording it as dropped. -/
def packGo (budget : Int) :
    List Item → List Item → List Dropped → Int → List Item × List Dropped × Int
  | [], inc, dr, t => (inc, dr, t)
  | it :: rest, inc, dr, t =>
    if t + it.tokens ≤ budget then
      packGo budget rest (inc ++ [it]) dr (t + it.tokens)
    else
      packGo budget rest inc (dr ++ [dropOf it]) t

/-- Model of `greedyPack` from `pack/greedy.ts`: admit all `required` items
unconditionally, then greedily admit optional items in comparator order. -/
def greedyPack (items : List Item) (budget : Int) : PackDecision :=
  let part := items.partition (fun i => i.priority = .required)
  let required := part.1
  let optional := part.2
  let sorted := sortOptional optional
  let res := packGo budget sorted required [] (sumTokens required)
  { included := res.1, dropped := res.2.1, totalTokens := res.2.2 }

/-! ## `pack/placement.ts` -/

/-- The classification loop of `applyPlacement`: one pass distributing items
into the `system`, `query`, `history` and `rest` buckets by source name. -/
def classify : List Item → List Item × List Item × List Item × List Item
  | [] => ([], [], [], [])
  | it :: l =>
    let p := classify l
    if it.source = "system" then (it :: p.1, p.2.1, p.2.2.1, p.2.2.2)
    else if it.source = "query" then (p.1, it :: p.2.1, p.2.2.1, p.2.2.2)
    else if it.source = "history" then (p.1, p.2.1, it :: p.2.2.1, p.2.2.2)
    else (p.1, p.2.1, p.2.2.1, it :: p.2.2.2)

/-- The "may precede" relation of the history sort
(`history.sort((a, b) => a.index - b.index)`): ascending original index,
ties stable. -/
def idxLE (a b : Item) : Prop := a.index ≤ b.index

instance : DecidableRel idxLE := fun a b => by unfold idxLE; infer_instance

instance : IsTotal Item idxLE where
  total a b := le_total a.index b.index

instance : IsTrans Item idxLE where
  trans _ _ _ hab hbc := le_trans hab hbc

/-- The "may precede" relation of the floating-item sort
(`rest.sort((a, b) => b.score - a.score)`): descending score, ties stable. -/
def restLE (a b : Item) : Prop := JScore.lt a.score b.score = false

instance : DecidableRel restLE := fun a b => by unfold restLE; infer_instance

instance : IsTotal Item restLE where
  total a b := by
    have hiff : ∀ x y : JScore, JScore.lt x y = true ↔
        JScore.toWT x < JScore.toWT y := fun x y => by
      cases x <;> cases y <;>
        simp [JScore.lt, JScore.toWT, WithTop.coe_lt_coe, WithTop.coe_lt_top,
          lt_irrefl]
    unfold restLE
    rcases le_total (JScore.toWT a.score) (JScore.toWT b.score) with h | h
    · right
      rw [Bool.eq_false_iff, Ne, hiff]
      exact fun hlt => absurd h (not_le.2 hlt)
    · left
      rw [Bool.eq_false_iff, Ne, hiff]
      exact fun hlt => absurd h (not_le.2 hlt)

instance : IsTrans Item restLE where
  trans a b c hab hbc := by
    have hiff : ∀ x y : JScore, JScore.lt x y = true ↔
        JScore.toWT x < JScore.toWT y := fun x y => by
      cases x <;> cases y <;>
        simp [JScore.lt, JScore.toWT, WithTop.coe_lt_coe, WithTop.coe_lt_top,
          lt_irrefl]
    unfold restLE at hab hbc ⊢
    rw [Bool.eq_false_iff, Ne, hiff] at hab hbc ⊢
    intro hac
    have h1 : JScore.toWT b.score ≤ JScore.toWT a.score := not_lt.1 hab
    have h2 : JScore.toWT c.score ≤ JScore.toWT b.score := not_lt.1 hbc
    exact absurd hac (not_lt.2 (le_trans h2 h1))

/-- The alternating split of `applyPlacement`: even positions (0, 2, 4, …)
to the first list, odd positions to the second, both in position order. -/
def altSplit : List Item → List Item × List Item
  | [] => ([], [])
  | x :: l =>
    let p := altSplit l
    (x :: p.2, p.1)

/-- Copy an item into a `PackedItem` with the given placement tag (the
`push` helper in `applyPlacement`). -/
def toPacked (p : Placement) (i : Item) : PackedItem :=
  { id := i.id, source := i.source, content := i.content, value := i.value,
    tokens := i.tokens, score := i.score, placement := p }

/-- Model of `applyPlacement` from `pack/placement.ts`: system first, then the
even-rank half of the score-sorted floating items, then the reversed
odd-rank half, then history in original order, then the query. -/
def applyPlacement (items : List Item) : List PackedItem :=
  let p := classify items
  let system := p.1
  let query := p.2.1
  let history := (p.2.2.1).insertionSort idxLE
  let rest := (p.2.2.2).insertionSort restLE
  let split := altSplit rest
  let beginning := split.1
  let middle := split.2.reverse
  system.map (toPacked .beginning) ++ beginning.map (toPacked .beginning) ++
    middle.map (toPacked .middle) ++ history.map (toPacked .sEnd) ++
    query.map (toPacked .sEnd)

/-! ## `pack/constraints.ts` -/

/-- A dependency constraint (`Constraint` in `pack/constraints.ts`). -/
structure Constraint where
  ifIncluded : String
  thenRequire : String
deriving DecidableEq, Repr

/-- Lookup in the `availableMap` built by
`new Map(available.map(i => [i.id, i]))`: with duplicate ids the last
entry wins, as for a JavaScript `Map`. -/
def availLookup (available : List Item) (k : String) : Option Item :=
  available.foldl (fun acc i => if i.id = k then some i else acc) none

/-- The mutable state threaded through `enforceConstraints`' loop:
the `included` array, the `includedIds` set (a JavaScript `Set` is
observed only through membership, so it is modelled as a finite set),
the running token total and the `added`/`removed` accumulators. -/
structure ECState where
  included : List Item
  ids : Finset String
  tokens : Int
  added : List Item
  removed : List Item

/-- Remove the first item satisfying a predicate (the
`findIndex` + `splice(idx, 1)` step of `enforceConstraints`). -/
def removeFirst (p : Item → Bool) : List Item → List Item
  | [] => []
  | x :: l => if p x then l else x :: removeFirst p l

/-- One iteration of `enforceConstraints`' loop over the constraint list. -/
def ecStep (available : List Item) (budget : Int) (s : ECState)
    (c : Constraint) : ECState :=
  if c.ifIncluded ∉ s.ids then s
  else if c.thenRequire ∈ s.ids then s
  else
    match availLookup available c.thenRequire with
    | none => s
    | some dep =>
      if s.tokens + dep.tokens ≤ budget then
        { s with
          included := s.included ++ [dep],
          ids := insert dep.id s.ids,
          tokens := s.tokens + dep.tokens,
          added := s.added ++ [dep] }
      else
        match s.included.find? (fun i => i.id = c.ifIncluded) with
        | none => s
        | some trigger =>
          if trigger.priority = .required then s
          else
            { s with
              included := removeFirst (fun i => i.id = c.ifIncluded) s.included,
              ids := s.ids.erase trigger.id,
              tokens := s.tokens - trigger.tokens,
              removed := s.removed ++ [trigger] }

/-- Fold of `ecStep` over the constraint list. -/
def ecGo (available : List Item) (budget : Int) :
    ECState → List Constraint → ECState
  | s, [] => s
  | s, c :: cs => ecGo available budget (ecStep available budget s c) cs

/-- Model of `enforceConstraints` from `pack/constraints.ts`: sequentially enforce
each `ifIncluded → thenRequire` rule, admitting the dependency when it
fits the budget and otherwise evicting the (non-`required`) trigger. -/
def enforceConstraints (included available : List Item)
    (constraints : List Constraint) (budget : Int) :
    List Item × List Item × List Item :=
  if constraints.isEmpty then (included, [], [])
  else
    let s0 : ECState :=
      { included := included, ids := (included.map Item.id).toFinset,
        tokens := sumTokens included, added := [], removed := [] }
    let s := ecGo available budget s0 constraints
    (s.included, s.added, s.removed)

/-! ## `report/cost.ts` -/

/-- Cost estimate record (`CostEstimate` in `types.ts`). -/
structure CostEstimate where
  input : String
  provider : String
deriving DecidableEq, Repr

/-- Pricing table (`PRICING` in `report/cost.ts`): model id, USD per 1M
input tokens, provider. -/
def pricingTable : List (String × ℚ × String) :=
  [("claude-opus-4-20250514", 15, "anthropic"),
   ("claude-sonnet-4-20250514", 3, "anthropic"),
   ("claude-sonnet-4-5-20250514", 3, "anthropic"),
   ("claude-haiku-3-5-20241022", 0.8, "anthropic"),
   ("gpt-4o", 2.5, "openai"),
   ("gpt-4o-mini", 0.15, "openai"),
   ("gpt-4-turbo", 10, "openai"),
   ("o1", 15, "openai"),
   ("o1-mini", 3, "openai"),
   ("o3", 10, "openai"),
   ("o3-mini", 1.1, "openai"),
   ("gemini-2.0-flash", 0.1, "google"),
   ("gemini-2.0-pro", 1.25, "google"),
   ("gemini-1.5-pro", 3.5, "google"),
   ("gemini-1.5-flash", 0.075, "google")]

/-- Left-pad a string with zeros to the given width. -/
def padZeros (s : String) (n : ℕ) : String :=
  String.mk (List.replicate (n - s.length) '0') ++ s

/-- Decimal rendering of a rational with four fractional digits, rounding
half up — the model of JavaScript's `Number.prototype.toFixed(4)`. -/
def qToFixed4 (q : ℚ) : String :=
  let n : ℤ := round (q * 10000)
  let m : ℕ := n.natAbs
  let digits := toString (m / 10000) ++ "." ++ padZeros (toString (m % 10000)) 4
  if n < 0 then "-" ++ digits else digits

/-- Model of `estimateCost` from `report/cost.ts`: exact model-id match first, then
prefix match, against the pricing table. -/
def estimateCost (tokens : Int) (model : String) : Option CostEstimate :=
  let entry :=
    (pricingTable.find? (fun e => e.1 = model)).orElse
      (fun _ => pricingTable.find? (fun e => model.startsWith e.1))
  match entry with
  | none => none
  | some (_, per1M, provider) =>
      some { input := "$" ++ qToFixed4 ((tokens : ℚ) / 1000000 * per1M),
             provider := provider }

/-! ## `report/stats.ts` and `report/warnings.ts` -/

/-- Per-source statistics (`SourceStats` in `types.ts`). -/
structure SourceStats where
  tokens : Int
  items : Int
  dropped : Option Int
  reason : Option String
deriving DecidableEq, Repr

/-- Aggregate statistics (`Stats` in `types.ts`); the `breakdown` record is
modelled as an insertion-ordered association list, as for a JavaScript
object. -/
structure Stats where
  totalTokens : Int
  budget : Int
  utilization : ℚ
  estimatedCost : Option CostEstimate
  breakdown : List (String × SourceStats)
deriving DecidableEq, Repr

/-- A warning (`Warning` in `types.ts`). -/
structure Warning where
  type : String
  message : String
deriving DecidableEq, Repr

/-- Update an insertion-ordered association list at a key: modify the entry
in place when present, append a fresh entry otherwise (JavaScript object
assignment semantics). -/
def updateAssoc (l : List (String × SourceStats)) (k : String)
    (f : Option SourceStats → SourceStats) : List (String × SourceStats) :=
  match l with
  | [] => [(k, f none)]
  | (k', v) :: rest =>
    if k' = k then (k', f (some v)) :: rest
    else (k', v) :: updateAssoc rest k f

/-- Running token total of a list of packed items. -/
def sumTokensP (l : List PackedItem) : Int :=
  l.foldl (fun s i => s + i.tokens) 0

/-- Model of `buildStats` from `report/stats.ts`; the only configuration field it reads is the model identifier, passed directly. -/
def buildStats (included : List PackedItem) (dropped : List Dropped)
    (budget : Int) (model : String) : Stats :=
  let bd1 := included.foldl
    (fun bd item => updateAssoc bd item.source
      (fun e =>
        let entry := e.getD { tokens := 0, items := 0, dropped := none, reason := none }
        { entry with tokens := entry.tokens + item.tokens, items := entry.items + 1 }))
    []
  let bd2 := dropped.foldl
    (fun bd item => updateAssoc bd item.source
      (fun e =>
        let entry := e.getD { tokens := 0, items := 0, dropped := none, reason := none }
        { entry with
          dropped := some (entry.dropped.getD 0 + 1),
          reason := if entry.reason.isNone then some item.reason else entry.reason }))
    bd1
  let totalTokens := sumTokensP included
  { totalTokens := totalTokens, budget := budget,
    utilization := if 0 < budget then (totalTokens : ℚ) / (budget : ℚ) else 0,
    estimatedCost := estimateCost totalTokens model,
    breakdown := bd2 }

/-- JavaScript `slice(a, b)` on a list. -/
def jsSlice (l : List PackedItem) (a b : ℕ) : List PackedItem :=
  (l.drop a).take (b - a)

/-- Model of `detectWarnings` from `report/warnings.ts`. -/
def detectWarnings (included : List PackedItem) (dropped : List Dropped)
    (budget : Int) : List Warning :=
  let requiredTokens :=
    sumTokensP (included.filter (fun i => i.score = .inf))
  let w1 : List Warning :=
    if budget < requiredTokens then
      [{ type := "budget-exceeded",
         message := "Required items alone use " ++ toString requiredTokens ++
           " tokens, exceeding the " ++ toString budget ++
           " token budget by " ++ toString (requiredTokens - budget) ++ " tokens." }]
    else []
  let totalItems := included.length
  let w2 : List Warning :=
    if 5 ≤ totalItems then
      let middleStart := 3 * totalItems / 10
      let middleEnd := (7 * totalItems + 9) / 10
      let middleItems := jsSlice included middleStart middleEnd
      let highScoreInMiddle := middleItems.filter
        (fun i => match i.score with
          | .inf => false
          | .fin q => decide (80 ≤ q))
      if 0 < highScoreInMiddle.length then
        [{ type := "lost-in-middle",
           message := toString highScoreInMiddle.length ++
             " high-relevance item(s) placed in the middle 40% of context where LLM attention is weakest." }]
      else []
    else []
  let toolCount := (included.filter (fun i => i.source = "tools")).length
  let w3 : List Warning :=
    if 10 < toolCount then
      [{ type := "tool-overload",
         message := toString toolCount ++
           " tool definitions included. Research suggests performance degrades beyond 10 tools — consider reducing." }]
    else []
  let totalDropped := dropped.length
  let totalConsidered := included.length + totalDropped
  let w4 : List Warning :=
    if 0 < totalConsidered ∧
        (1/2 : ℚ) < (totalDropped : ℚ) / (totalConsidered : ℚ) then
      [{ type := "high-drop-rate",
         message := toString totalDropped ++ " of " ++ toString totalConsidered ++
           " items (" ++ toString (round ((totalDropped : ℚ) / (totalConsidered : ℚ) * 100)) ++
           "%) were dropped. Consider increasing the budget or reducing context sources." }]
    else []
  let totalTokens := sumTokensP included
  let w5 : List Warning :=
    if 0 < budget ∧ (totalTokens : ℚ) / (budget : ℚ) < 1/10 ∧ totalDropped = 0 then
      [{ type := "low-utilization",
         message := "Only " ++ toString (round ((totalTokens : ℚ) / (budget : ℚ) * 100)) ++
           "% of the token budget is used. The context window may be larger than needed." }]
    else []
  w1 ++ w2 ++ w3 ++ w4 ++ w5

/-! ## `optimizer.ts` -/

/-- Compression strategy (`CompressStrategy` in `types.ts`). -/
inductive CompressStrategy where
  | truncate
  | summarizeOldest
  | cnone
deriving DecidableEq, Repr

/-- Per-source registration options (`AddOptions` in `types.ts`); only the
fields `pack` reads are semantically relevant (`compressStrategy`,
`scorer`, `requires`). -/
structure AddOptions where
  priority : Priority
  compressStrategy : Option CompressStrategy
  keepLast : Option Int
  scorer : Option (Item → String → ℚ)
  requires : List (String × String)

/-- A registered source (`ContextSource` in `types.ts`). -/
structure Source where
  name : String
  items : List Item
  options : AddOptions

/-- The configuration fields of `ContextOptimizer` that `pack` reads. -/
structure Config where
  model : String
  contextWindow : Int
  reserveOutput : Option Int

/-- The constant `DEFAULT_RESERVE_OUTPUT` in `optimizer.ts`. -/
def DEFAULT_RESERVE_OUTPUT : Int := 4096

/-- The private state of a `ContextOptimizer` instance: its config, the
tokenizer resolved at construction (`config.tokenizer ?? new
DefaultTokenizer()`), and the registry of sources (a `Map` iterated in
insertion order, modelled as a list). -/
structure OptimizerState where
  config : Config
  tokenizer : String → Int
  sources : List Source

/-- JavaScript truthiness of the optional `query` string: absent and empty
strings are falsy. -/
def jsTruthy : Option String → Bool
  | none => false
  | some s => !s.isEmpty

/-- The custom-scorer override applied per item: non-`required` items get
their score replaced by the scorer's result. -/
def scorerStep (f : Item → String → ℚ) (qs : String) (it : Item) : Item :=
  if it.priority = .required then it
  else { it with score := .fin (f it qs) }

/-- The per-source body of `collectAndScore`: overwrite each item's score
from its priority, apply recency bias to ordered sources, then apply the
custom scorer (when present and a query was given) to non-`required`
items.  The in-place mutation of the registered items is modelled by
returning the updated source. -/
def scoreSource (qt : Bool) (qs : String) (s : Source) : Source :=
  let items1 := s.items.map (fun it => { it with score := scorePriority it.priority })
  let items2 :=
    if s.name = "history" ∨ s.options.compressStrategy = some .summarizeOldest then
      applyRecencyBias items1
    else items1
  let items3 :=
    match s.options.scorer with
    | some f => if qt then items2.map (scorerStep f qs) else items2
    | none => items2
  { s with items := items3 }

/-- Model of `collectAndScore` in `optimizer.ts`: score every source's items and
collect them into one list, returning the updated registry alongside. -/
def collectAndScoreCore (qt : Bool) (qs : String) (sources : List Source) :
    List Source × List Item :=
  let ss := sources.map (scoreSource qt qs)
  (ss, (ss.map Source.items).flatten)

/-- Model of `collectConstraints` in `optimizer.ts`: flatten every source's
`requires` record into a constraint list, in registration/entry order. -/
def collectConstraints (sources : List Source) : List Constraint :=
  (sources.map (fun s => s.options.requires.map
    (fun p => ({ ifIncluded := p.1, thenRequire := p.2 } : Constraint)))).flatten

/-- The `query` item appended by `pack` when a (truthy) query is given. -/
def queryItem (st : OptimizerState) (qs : String) : Item :=
  { id := "query_0", source := "query", content := qs, value := qs,
    tokens := st.tokenizer qs, priority := .required, score := .inf, index := 0 }

/-- The dropped-item record `pack` writes for an item removed by
constraint enforcement. -/
def constraintDropOf (i : Item) : Dropped :=
  { source := i.source, id := i.id, tokens := i.tokens, score := i.score,
    reason := "constraint dependency unavailable" }

/-- The result of one `pack` call (`PackResult` in `types.ts`). -/
structure PackResult where
  items : List PackedItem
  stats : Stats
  warnings : List Warning
  dropped : List Dropped

/-- The body of `ContextOptimizer.pack`, parameterized by the query's
truthiness and string value (the only two observations the source makes of
the optional `query` argument).  Returns the result together with the
updated optimizer state (the registered items' scores are mutated in
place by `collectAndScore`). -/
def packCore (st : OptimizerState) (qt : Bool) (qs : String) :
    PackResult × OptimizerState :=
  let budget := st.config.contextWindow -
    (st.config.reserveOutput.getD DEFAULT_RESERVE_OUTPUT)
  let cas := collectAndScoreCore qt qs st.sources
  let sources' := cas.1
  let allItems0 := cas.2
  let allItems := if qt then allItems0 ++ [queryItem st qs] else allItems0
  let gp := greedyPack allItems budget
  let constraints := collectConstraints sources'
  let available := gp.dropped.filterMap
    (fun d => allItems.find? (fun i => i.id = d.id))
  let ec := enforceConstraints gp.included available constraints budget
  let addedIds := (ec.2.1).map Item.id
  let finalDropped :=
    gp.dropped.filter (fun d => ¬ addedIds.contains d.id) ++
      (ec.2.2).map constraintDropOf
  let placed := applyPlacement ec.1
  let stats := buildStats placed finalDropped budget st.config.model
  let warnings := detectWarnings placed finalDropped budget
  ({ items := placed, stats := stats, warnings := warnings,
     dropped := finalDropped },
   { st with sources := sources' })

/-- Model of `ContextOptimizer.pack`: the optional query argument is observed only
through its truthiness and (when truthy) its string value. -/
def pack (st : OptimizerState) (q : Option String) :
    PackResult × OptimizerState :=
  packCore st (jsTruthy q) (q.getD "")

/-- The fields of an item carried unchanged into the placed output
(everything except the placement tag and the packing-internal
`priority`/`index` fields, which `PackedItem` does not have). -/
def itemCore (i : Item) : String × String × String × String × Int × JScore :=
  (i.id, i.source, i.content, i.value, i.tokens, i.score)

/-- The fields of a placed item other than its placement tag. -/
def packedCore (p : PackedItem) : String × String × String × String × Int × JScore :=
  (p.id, p.source, p.content, p.value, p.tokens, p.score)

/-- The predicate used below to classify the floating items. -/
def isFloating (i : Item) : Prop :=
  ¬ i.source = "system" ∧ ¬ i.source = "query" ∧ ¬ i.source = "history"

instance : DecidablePred isFloating := fun i => by unfold isFloating; infer_instance

/-! ## A state-free rephrasing of one constraint-enforcement step

`ecSpecStep` restates one iteration of `enforceConstraints`' loop purely in
terms of the current `included` list, the `available` pool and the budget
(the claim's phrasing); the refinement theorem below proves the
implementation's threaded state (`includedIds`, running total) realizes
exactly this step, sequentially. -/
def ecSpecStep (inc avail : List Item) (c : Constraint) (budget : Int) :
    List Item × List Item × List Item :=
  if ¬ (∃ i ∈ inc, i.id = c.ifIncluded) then (inc, [], [])
  else if ∃ i ∈ inc, i.id = c.thenRequire then (inc, [], [])
  else
    match availLookup avail c.thenRequire with
    | none => (inc, [], [])
    | some dep =>
      if sumTokens inc + dep.tokens ≤ budget then (inc ++ [dep], [dep], [])
      else
        match inc.find? (fun i => i.id = c.ifIncluded) with
        | none => (inc, [], [])
        | some trigger =>
          if trigger.priority = .required then (inc, [], [])
          else (removeFirst (fun i => i.id = c.ifIncluded) inc, [], [trigger])

/-- The claim's sequential reading of constraint enforcement: fold
`ecSpecStep` over the constraints in declaration order, re-evaluating each
against the current included list. -/
def ecFold (avail : List Item) (budget : Int) :
    List Item → List Constraint → List Item × List Item × List Item
  | inc, [] => (inc, [], [])
  | inc, c :: cs =>
    let s := ecSpecStep inc avail c budget
    let r := ecFold avail budget s.1 cs
    (r.1, s.2.1 ++ r.2.1, s.2.2 ++ r.2.2)

/-- Forget an item's score (the only field `collectAndScore` mutates
across calls). -/
def eraseScore (it : Item) : Item := { it with score := .fin 0 }

/-! ## Lemmas about `greedyPack` -/

theorem JScore.lt_iff_toWT (a b : JScore) : lt a b = true ↔ toWT a < toWT b := by
  cases a <;> cases b <;>
    simp [lt, toWT, WithTop.coe_lt_coe, WithTop.coe_lt_top, lt_irrefl]

theorem sumTokens_eq (l : List Item) : sumTokens l = (l.map Item.tokens).sum := by
  have h : ∀ (l : List Item) (a : Int),
      l.foldl (fun s i => s + i.tokens) a = a + (l.map Item.tokens).sum := by
    intro l
    induction l with
    | nil => simp
    | cons x xs ih => intro a; simp [List.foldl_cons, ih, add_assoc]
  simpa using h l 0

theorem sumTokens_nil : sumTokens [] = 0 := rfl

theorem sumTokens_append (l₁ l₂ : List Item) :
    sumTokens (l₁ ++ l₂) = sumTokens l₁ + sumTokens l₂ := by
  simp [sumTokens_eq]

theorem sumTokens_cons (x : Item) (l : List Item) :
    sumTokens (x :: l) = x.tokens + sumTokens l := by
  simp [sumTokens_eq]

theorem packGo_spec (budget : Int) (rest : List Item) :
    ∀ (inc : List Item) (dr : List Dropped) (t : Int),
    ∃ adm drp,
      packGo budget rest inc dr t =
        (inc ++ adm, dr ++ drp.map dropOf, t + sumTokens adm) ∧
      (adm ++ drp).Perm rest ∧
      (∀ k < adm.length, t + sumTokens (adm.take (k + 1)) ≤ budget) := by
  induction rest with
  | nil =>
    intro inc dr t
    exact ⟨[], [], by simp [packGo, sumTokens_nil], by simp, by simp⟩
  | cons it rest ih =>
    intro inc dr t
    by_cases h : t + it.tokens ≤ budget
    · obtain ⟨adm, drp, heq, hperm, hpre⟩ := ih (inc ++ [it]) dr (t + it.tokens)
      refine ⟨it :: adm, drp, ?_, ?_, ?_⟩
      · rw [packGo, if_pos h, heq]
        simp [sumTokens_cons, add_assoc]
      · simpa using hperm.cons it
      · intro k hk
        match k with
        | 0 =>
          simpa [sumTokens_cons, sumTokens_nil] using h
        | Nat.succ k =>
          have hk' : k < adm.length := by
            simpa [Nat.succ_lt_succ_iff] using hk
          have := hpre k hk'
          simpa [sumTokens_cons, add_assoc] using this
    · obtain ⟨adm, drp, heq, hperm, hpre⟩ := ih inc (dr ++ [dropOf it]) t
      refine ⟨adm, it :: drp, ?_, ?_, hpre⟩
      · rw [packGo, if_neg h, heq]
        simp
      · refine List.Perm.trans ?_ (hperm.cons it)
        exact List.perm_middle

theorem partition_required (items : List Item) :
    items.partition (fun i => i.priority = .required) =
      (items.filter (fun i => i.priority = .required),
       items.filter (fun i => ¬ i.priority = .required)) := by
  rw [List.partition_eq_filter_filter]
  refine congrArg₂ Prod.mk ?_ ?_
  · simp
  · exact List.filter_congr (fun a _ => by simp)

/-- Master characterization of `greedyPack`: the included list is the
required items followed by some admitted optional items, the dropped list
records the remaining optional items, and every admission kept the running
total within budget. -/
theorem greedyPack_spec (items : List Item) (budget : Int) :
    ∃ adm drp,
      greedyPack items budget =
        { included := items.filter (fun i => i.priority = .required) ++ adm,
          dropped := drp.map dropOf,
          totalTokens :=
            sumTokens (items.filter (fun i => i.priority = .required)) +
              sumTokens adm } ∧
      (adm ++ drp).Perm
        (sortOptional (items.filter (fun i => ¬ i.priority = .required))) ∧
      (∀ k < adm.length,
        sumTokens (items.filter (fun i => i.priority = .required)) +
          sumTokens (adm.take (k + 1)) ≤ budget) := by
  obtain ⟨adm, drp, heq, hperm, hpre⟩ :=
    packGo_spec budget
      (sortOptional (items.filter (fun i => ¬ i.priority = .required)))
      (items.filter (fun i => i.priority = .required)) []
      (sumTokens (items.filter (fun i => i.priority = .required)))
  refine ⟨adm, drp, ?_, hperm, hpre⟩
  unfold greedyPack
  rw [partition_required]
  simp only [heq, List.nil_append]

theorem mem_sortOptional {x : Item} {l : List Item} :
    x ∈ sortOptional l ↔ x ∈ l :=
  List.Perm.mem_iff (List.perm_insertionSort optLE l)

/-- C1: for every item list and every budget, `greedyPack` admits every
`required` item, its `totalTokens` is the full token cost of the required
items plus that of the admitted optional items (so it can exceed the
budget), and every dropped record stems from a non-`required` item — no
required item is ever dropped. -/
theorem greedyPack_required_unconditional (items : List Item) (budget : Int) :
    (∀ it ∈ items, it.priority = .required →
      it ∈ (greedyPack items budget).included) ∧
    (greedyPack items budget).totalTokens =
      sumTokens (items.filter (fun i => i.priority = .required)) +
        sumTokens ((greedyPack items budget).included.filter
          (fun i => ¬ i.priority = .required)) ∧
    (∀ d ∈ (greedyPack items budget).dropped,
      ∃ it ∈ items, ¬ it.priority = .required ∧ d = dropOf it) := by
  obtain ⟨adm, drp, heq, hperm, _⟩ := greedyPack_spec items budget
  have hadm : ∀ x ∈ adm, ¬ x.priority = .required := by
    intro x hx
    have : x ∈ sortOptional (items.filter (fun i => ¬ i.priority = .required)) :=
      hperm.subset (List.mem_append_left _ hx)
    have := mem_sortOptional.1 this
    simpa using (List.mem_filter.1 this).2
  have hdrp : ∀ x ∈ drp,
      x ∈ items ∧ ¬ x.priority = .required := by
    intro x hx
    have : x ∈ sortOptional (items.filter (fun i => ¬ i.priority = .required)) :=
      hperm.subset (List.mem_append_right _ hx)
    have := mem_sortOptional.1 this
    exact ⟨(List.mem_filter.1 this).1, by simpa using (List.mem_filter.1 this).2⟩
  refine ⟨?_, ?_, ?_⟩
  · intro it hit hreq
    rw [heq]
    exact List.mem_append_left _ (List.mem_filter.2 ⟨hit, by simp [hreq]⟩)
  · rw [heq]
    simp only
    congr 1
    rw [List.filter_append]
    have h1 : (items.filter (fun i => i.priority = .required)).filter
        (fun i => ¬ i.priority = .required) = [] := by
      rw [List.filter_filter]
      apply List.filter_eq_nil_iff.2
      intro a _
      simp
    have h2 : adm.filter (fun i => ¬ i.priority = .required) = adm := by
      apply List.filter_eq_self.2
      intro a ha
      simpa using hadm a ha
    rw [h1, h2, List.nil_append]
  · intro d hd
    rw [heq] at hd
    simp only at hd
    obtain ⟨x, hx, hxd⟩ := List.mem_map.1 hd
    exact ⟨x, (hdrp x hx).1, (hdrp x hx).2, hxd.symm⟩

/-- Witness for C1 at a concrete input. -/
theorem greedyPack_required_unconditional_witness :
    ({ id := "sys", source := "system", content := "x", value := "x",
       tokens := 500, priority := .required, score := .inf, index := 0 } : Item) ∈
      (greedyPack
        [{ id := "sys", source := "system", content := "x", value := "x",
           tokens := 500, priority := .required, score := .inf, index := 0 }]
        100).included :=
  (greedyPack_required_unconditional _ 100).1 _ (by simp) rfl

theorem sumTokens_nonneg {l : List Item} (h : ∀ it ∈ l, 0 ≤ it.tokens) :
    0 ≤ sumTokens l := by
  rw [sumTokens_eq]
  apply List.sum_nonneg
  intro x hx
  obtain ⟨it, hit, rfl⟩ := List.mem_map.1 hx
  exact h it hit

/-- C2 counterexample: the claim's final clause "when there are no required
items `totalTokens ≤ budget`" fails for a negative budget — already on the
empty item list, whose token costs are vacuously non-negative, the total
is `0` while the budget is `-1`. -/
theorem greedyPack_budget_negative_counterexample :
    (greedyPack [] (-1)).totalTokens = 0 ∧
    (([] : List Item).filter (fun i => i.priority = .required) = []) ∧
    ¬ (greedyPack [] (-1)).totalTokens ≤ -1 := by
  refine ⟨rfl, rfl, ?_⟩
  intro h
  simp [greedyPack, sortOptional, packGo, sumTokens, partition_required] at h

/-- C2 (amended): with non-negative token costs, an optional item is
admitted only when the running total after adding it stays within budget,
every excluded optional item carries reason `"budget exhausted"`, the
final total is at most `max budget (sum of required tokens)`, and — when
there are no required items and the budget is non-negative — the total is
at most the budget. -/
theorem greedyPack_optional_budget_respect (items : List Item) (budget : Int)
    (hnn : ∀ it ∈ items, 0 ≤ it.tokens) :
    (∃ adm,
      (greedyPack items budget).included =
        items.filter (fun i => i.priority = .required) ++ adm ∧
      (∀ it ∈ adm, ¬ it.priority = .required) ∧
      (∀ k < adm.length,
        sumTokens (items.filter (fun i => i.priority = .required)) +
          sumTokens (adm.take (k + 1)) ≤ budget)) ∧
    (∀ d ∈ (greedyPack items budget).dropped, d.reason = "budget exhausted") ∧
    (greedyPack items budget).totalTokens ≤
      max budget (sumTokens (items.filter (fun i => i.priority = .required))) ∧
    (items.filter (fun i => i.priority = .required) = [] → 0 ≤ budget →
      (greedyPack items budget).totalTokens ≤ budget) := by
  clear hnn
  obtain ⟨adm, drp, heq, hperm, hpre⟩ := greedyPack_spec items budget
  have hadm : ∀ x ∈ adm, ¬ x.priority = .required := by
    intro x hx
    have : x ∈ sortOptional (items.filter (fun i => ¬ i.priority = .required)) :=
      hperm.subset (List.mem_append_left _ hx)
    simpa using (List.mem_filter.1 (mem_sortOptional.1 this)).2
  have htot : (greedyPack items budget).totalTokens =
      sumTokens (items.filter (fun i => i.priority = .required)) + sumTokens adm := by
    rw [heq]
  have hfull : adm ≠ [] →
      sumTokens (items.filter (fun i => i.priority = .required)) +
        sumTokens adm ≤ budget := by
    intro hne
    have hlen : 0 < adm.length := List.length_pos.2 hne
    have := hpre (adm.length - 1) (by omega)
    rwa [Nat.sub_add_cancel hlen, List.take_length] at this
  refine ⟨⟨adm, by rw [heq], hadm, hpre⟩, ?_, ?_, ?_⟩
  · intro d hd
    rw [heq] at hd
    obtain ⟨x, _, rfl⟩ := List.mem_map.1 hd
    rfl
  · rw [htot]
    rcases eq_or_ne adm [] with rfl | hne
    · simp [sumTokens_nil]
    · exact le_max_of_le_left (hfull hne)
  · intro hreq hb
    rw [htot, hreq, sumTokens_nil, zero_add]
    rcases eq_or_ne adm [] with rfl | hne
    · simpa [sumTokens_nil] using hb
    · have := hfull hne
      rwa [hreq, sumTokens_nil, zero_add] at this

/-- Witness for C2 (amended) at a concrete input: two optional items of
cost 100 and scores 80 and 50 against budget 200 are both admitted within
budget. -/
theorem greedyPack_optional_budget_respect_witness :
    (∀ it ∈ [({ id := "a", source := "rag", content := "a", value := "a",
                tokens := 100, priority := .medium, score := .fin 80,
                index := 0 } : Item),
              { id := "b", source := "rag", content := "b", value := "b",
                tokens := 100, priority := .medium, score := .fin 50,
                index := 1 }], 0 ≤ it.tokens) ∧
    (greedyPack
        [{ id := "a", source := "rag", content := "a", value := "a",
           tokens := 100, priority := .medium, score := .fin 80, index := 0 },
         { id := "b", source := "rag", content := "b", value := "b",
           tokens := 100, priority := .medium, score := .fin 50, index := 1 }]
        200).totalTokens ≤ 200 :=
  ⟨by decide,
   (greedyPack_optional_budget_respect _ 200 (by decide)).2.2.2 (by decide)
     (by decide)⟩

/-- C8 counterexample: with budget exactly `0`, a zero-cost optional item
is admitted (`0 + 0 ≤ 0`), not excluded — the claim's "every budget ≤ 0"
is too strong. -/
theorem greedyPack_zero_budget_counterexample :
    (greedyPack
        [{ id := "a", source := "rag", content := "", value := "",
           tokens := 0, priority := .low, score := .fin 10, index := 0 }]
        0).included =
      [{ id := "a", source := "rag", content := "", value := "",
         tokens := 0, priority := .low, score := .fin 10, index := 0 }] ∧
    (greedyPack
        [{ id := "a", source := "rag", content := "", value := "",
           tokens := 0, priority := .low, score := .fin 10, index := 0 }]
        0).dropped = [] := by
  constructor <;> rfl

/-- C8 (amended): with non-negative token costs and a strictly negative
budget, `greedyPack` admits exactly the required items and drops every
optional item with reason `"budget exhausted"`; on empty input it returns
the empty decision with zero total (for every budget). -/
theorem greedyPack_degenerate_budget (items : List Item) (budget : Int)
    (hnn : ∀ it ∈ items, 0 ≤ it.tokens) (hb : budget < 0) :
    (greedyPack items budget).included =
      items.filter (fun i => i.priority = .required) ∧
    (∀ it ∈ items, ¬ it.priority = .required →
      dropOf it ∈ (greedyPack items budget).dropped) ∧
    (∀ d ∈ (greedyPack items budget).dropped, d.reason = "budget exhausted") ∧
    (∀ b : Int,
      greedyPack [] b = { included := [], dropped := [], totalTokens := 0 }) := by
  obtain ⟨adm, drp, heq, hperm, hpre⟩ := greedyPack_spec items budget
  have hreqnn : 0 ≤ sumTokens (items.filter (fun i => i.priority = .required)) :=
    sumTokens_nonneg (fun it hit => hnn it (List.mem_filter.1 hit).1)
  have hadm0 : adm = [] := by
    cases adm with
    | nil => rfl
    | cons a as =>
      exfalso
      have h0 := hpre 0 (by simp)
      have ha : a ∈ sortOptional (items.filter (fun i => ¬ i.priority = .required)) :=
        hperm.subset (List.mem_append_left _ (by simp))
      have hann : 0 ≤ a.tokens :=
        hnn a (List.mem_filter.1 (mem_sortOptional.1 ha)).1
      rw [List.take_succ_cons, List.take_zero, sumTokens_cons, sumTokens_nil] at h0
      omega
  subst hadm0
  have hperm' : drp.Perm
      (sortOptional (items.filter (fun i => ¬ i.priority = .required))) := by
    simpa using hperm
  refine ⟨?_, ?_, ?_, ?_⟩
  · rw [heq]; simp
  · intro it hit hopt
    rw [heq]
    simp only
    refine List.mem_map.2 ⟨it, ?_, rfl⟩
    refine hperm'.mem_iff.2 ?_
    exact mem_sortOptional.2 (List.mem_filter.2 ⟨hit, by simpa using hopt⟩)
  · intro d hd
    rw [heq] at hd
    obtain ⟨x, _, rfl⟩ := List.mem_map.1 hd
    rfl
  · intro b
    rfl

/-- Witness for C8 (amended): one optional item against budget `-5` is
excluded with reason `"budget exhausted"`. -/
theorem greedyPack_degenerate_budget_witness :
    dropOf { id := "a", source := "rag", content := "a", value := "a",
             tokens := 3, priority := .low, score := .fin 10, index := 0 } ∈
      (greedyPack
        [{ id := "a", source := "rag", content := "a", value := "a",
           tokens := 3, priority := .low, score := .fin 10, index := 0 }]
        (-5)).dropped :=
  (greedyPack_degenerate_budget _ (-5) (by decide) (by decide)).2.1 _ (by simp)
    (by decide)

/-! ## Stability of the modelled `Array.prototype.sort` -/

section Stability

variable {r : Item → Item → Prop} [DecidableRel r]

theorem filter_orderedInsert_pos (p : Item → Bool) (x : Item) (l : List Item)
    (hx : p x = true) (h : ∀ b ∈ l, p b = true → r x b) :
    (l.orderedInsert r x).filter p = x :: l.filter p := by
  induction l with
  | nil => simp [List.orderedInsert, hx]
  | cons y ys ih =>
    rw [List.orderedInsert]
    by_cases hr : r x y
    · rw [if_pos hr]
      simp [List.filter_cons, hx]
    · rw [if_neg hr]
      have hy : p y = false := by
        cases hpy : p y
        · rfl
        · exact absurd (h y (by simp) hpy) hr
      rw [List.filter_cons_of_neg (by simp [hy]),
        ih (fun b hb hpb => h b (by simp [hb]) hpb),
        List.filter_cons_of_neg (by simp [hy])]

theorem filter_orderedInsert_neg (p : Item → Bool) (x : Item) (l : List Item)
    (hx : p x = false) :
    (l.orderedInsert r x).filter p = l.filter p := by
  induction l with
  | nil => simp [List.orderedInsert, hx]
  | cons y ys ih =>
    rw [List.orderedInsert]
    by_cases hr : r x y
    · rw [if_pos hr, List.filter_cons_of_neg (by simp [hx])]
    · rw [if_neg hr]
      rw [List.filter_cons, List.filter_cons, ih]

/-- Stability of `insertionSort`: a class of pairwise-interchangeable
elements (any two satisfy `r` both ways) is left in its original relative
order. -/
theorem filter_insertionSort (p : Item → Bool)
    (hcompat : ∀ a b : Item, p a = true → p b = true → r a b) :
    ∀ l : List Item, (l.insertionSort r).filter p = l.filter p := by
  intro l
  induction l with
  | nil => rfl
  | cons x xs ih =>
    rw [List.insertionSort]
    cases hp : p x
    · rw [filter_orderedInsert_neg _ _ _ hp, ih,
        List.filter_cons_of_neg (by simp [hp])]
    · rw [filter_orderedInsert_pos _ _ _ hp
        (fun b _ hpb => hcompat x b hp hpb), ih,
        List.filter_cons_of_pos (by simp [hp])]

end Stability

/-- C3 counterexample: two optional items with equal score and equal token
cost are *not* reordered by ascending `originalIndex`; the comparator has
no index component, so the stable sort keeps input order.  Here the
item with index 1 precedes the item with index 0 in the input and is
admitted, while the claim predicts the index-0 item would be considered
first. -/
theorem greedyPack_no_index_tiebreak_counterexample :
    ((greedyPack
        [{ id := "a", source := "rag", content := "a", value := "a",
           tokens := 10, priority := .low, score := .fin 5, index := 1 },
         { id := "b", source := "rag", content := "b", value := "b",
           tokens := 10, priority := .low, score := .fin 5, index := 0 }]
        10).included.map Item.id = ["a"]) ∧
    ((greedyPack
        [{ id := "a", source := "rag", content := "a", value := "a",
           tokens := 10, priority := .low, score := .fin 5, index := 1 },
         { id := "b", source := "rag", content := "b", value := "b",
           tokens := 10, priority := .low, score := .fin 5, index := 0 }]
        10).dropped.map Dropped.id = ["b"]) := by
  constructor <;> rfl

/-- C3 (amended): `greedyPack` orders optional items by descending score,
breaking ties by ascending token cost; items with equal score *and* equal
token cost keep their relative input order (the sort is stable) — there is
no `originalIndex` tie-break.  The order is still fully deterministic,
`greedyPack` being a pure function of its input. -/
theorem sortOptional_characterization (l : List Item) :
    List.Sorted optLE (sortOptional l) ∧
    (sortOptional l).Perm l ∧
    (∀ (s : JScore) (t : Int),
      (sortOptional l).filter (fun it => it.score = s ∧ it.tokens = t) =
        l.filter (fun it => it.score = s ∧ it.tokens = t)) := by
  refine ⟨List.sorted_insertionSort optLE l, List.perm_insertionSort optLE l, ?_⟩
  intro s t
  apply filter_insertionSort
  intro a b ha hb
  have ha' : a.score = s ∧ a.tokens = t := by simpa using ha
  have hb' : b.score = s ∧ b.tokens = t := by simpa using hb
  right
  have hsc : a.score = b.score := ha'.1.trans hb'.1.symm
  have hlt : JScore.lt a.score b.score = false := by
    rw [Bool.eq_false_iff, Ne, JScore.lt_iff_toWT, hsc]
    exact lt_irrefl _
  have hlt2 : JScore.lt b.score a.score = false := by
    rw [Bool.eq_false_iff, Ne, JScore.lt_iff_toWT, hsc]
    exact lt_irrefl _
  exact ⟨hlt, hlt2, le_of_eq (ha'.2.trans hb'.2.symm)⟩

/-! ## Lemmas about `applyRecencyBias` -/

theorem recencyMap_getElem? (minFactor : ℚ) (total : ℕ) :
    ∀ (l : List Item) (i0 k : ℕ),
      (recencyMap minFactor total i0 l)[k]? =
        (l[k]?).map (recStep minFactor total (i0 + k)) := by
  intro l
  induction l with
  | nil => intro i0 k; simp [recencyMap]
  | cons it rest ih =>
    intro i0 k
    cases k with
    | zero => simp [recencyMap]
    | succ k =>
      rw [recencyMap, List.getElem?_cons_succ, List.getElem?_cons_succ, ih]
      have : i0 + 1 + k = i0 + (k + 1) := by omega
      rw [this]

theorem recencyMap_length (minFactor : ℚ) (total : ℕ) :
    ∀ (l : List Item) (i0 : ℕ),
      (recencyMap minFactor total i0 l).length = l.length := by
  intro l
  induction l with
  | nil => intro i0; rfl
  | cons it rest ih => intro i0; simp [recencyMap, ih]

theorem recFactor_mono {minFactor : ℚ} (total : ℕ) {i j : ℕ}
    (hm : minFactor ≤ 1) (hij : i ≤ j) (htot : 2 ≤ total) :
    recFactor minFactor total i ≤ recFactor minFactor total j := by
  unfold recFactor
  have hpos : (0 : ℚ) < (total : ℚ) - 1 := by
    have : (2 : ℚ) ≤ (total : ℚ) := by exact_mod_cast htot
    linarith
  have hij' : (i : ℚ) ≤ (j : ℚ) := by exact_mod_cast hij
  have hnum : (1 - minFactor) * (i : ℚ) ≤ (1 - minFactor) * (j : ℚ) :=
    mul_le_mul_of_nonneg_left hij' (by linarith)
  rw [div_eq_mul_inv, div_eq_mul_inv]
  exact add_le_add_left (mul_le_mul_of_nonneg_right hnum (inv_nonneg.2 hpos.le)) _

theorem recFactor_last {minFactor : ℚ} {total : ℕ} (htot : 2 ≤ total) :
    recFactor minFactor total (total - 1) = 1 := by
  unfold recFactor
  have h1 : ((total - 1 : ℕ) : ℚ) = (total : ℚ) - 1 := by
    have : (1 : ℕ) ≤ total := by omega
    push_cast [Nat.cast_sub this]
    ring
  have hne : (total : ℚ) - 1 ≠ 0 := by
    have : (2 : ℚ) ≤ (total : ℚ) := by exact_mod_cast htot
    intro h
    linarith
  rw [h1, mul_div_assoc, div_self hne, mul_one]
  ring

/-- C7: `applyRecencyBias` is a no-op on lists of length ≤ 1; on longer
lists it multiplies each non-`required` item's score at index `k` by
`minFactor + (1 - minFactor) * k / (n - 1)` (default `minFactor` 1/10) and
leaves `required` items untouched; consequently, at the default, a list of
non-`required` items with equal non-negative base score has non-decreasing
decayed scores and the last item keeps its pre-decay score. -/
theorem applyRecencyBias_spec :
    (∀ (items : List Item) (minFactor : ℚ), items.length ≤ 1 →
      applyRecencyBias items minFactor = items) ∧
    (∀ (items : List Item) (minFactor : ℚ) (k : ℕ), 2 ≤ items.length →
      (applyRecencyBias items minFactor)[k]? =
        (items[k]?).map (fun it =>
          if it.priority = .required then it
          else { it with score := it.score.scale (minFactor +
            (1 - minFactor) * k / ((items.length : ℚ) - 1)) })) ∧
    (∀ (items : List Item) (s : ℚ), 0 ≤ s →
      (∀ it ∈ items, ¬ it.priority = .required ∧ it.score = .fin s) →
      (∀ (i j : ℕ) (a b : Item), i ≤ j →
        (applyRecencyBias items)[i]? = some a →
        (applyRecencyBias items)[j]? = some b →
        ∃ qa qb, a.score = .fin qa ∧ b.score = .fin qb ∧ qa ≤ qb) ∧
      (∀ a : Item, (applyRecencyBias items)[items.length - 1]? = some a →
        a.score = .fin s)) := by
  have hnoop : ∀ (items : List Item) (minFactor : ℚ), items.length ≤ 1 →
      applyRecencyBias items minFactor = items := by
    intro items minFactor h
    unfold applyRecencyBias
    rw [if_pos h]
  have hpoint : ∀ (items : List Item) (minFactor : ℚ) (k : ℕ),
      2 ≤ items.length →
      (applyRecencyBias items minFactor)[k]? =
        (items[k]?).map (recStep minFactor items.length k) := by
    intro items minFactor k h
    unfold applyRecencyBias
    rw [if_neg (by omega), recencyMap_getElem?]
    simp
  refine ⟨hnoop, ?_, ?_⟩
  · intro items minFactor k h
    rw [hpoint items minFactor k h]
    rfl
  · intro items s hs hall
    by_cases hlen : items.length ≤ 1
    · rw [hnoop items _ hlen]
      constructor
      · intro i j a b _ ha hb
        have ha' := (hall a (List.getElem?_mem ha)).2
        have hb' := (hall b (List.getElem?_mem hb)).2
        exact ⟨s, s, ha', hb', le_refl s⟩
      · intro a ha
        exact (hall a (List.getElem?_mem ha)).2
    · have h2 : 2 ≤ items.length := by omega
      have hstep : ∀ (k : ℕ) (a : Item),
          (applyRecencyBias items)[k]? = some a →
          a.score = .fin (s * recFactor (1/10) items.length k) := by
        intro k a ha
        rw [hpoint items (1/10) k h2] at ha
        obtain ⟨orig, horig, hrec⟩ := Option.map_eq_some'.1 ha
        obtain ⟨hnr, hsc⟩ := hall orig (List.getElem?_mem horig)
        rw [← hrec]
        unfold recStep
        rw [if_neg hnr, hsc]
        rfl
      constructor
      · intro i j a b hij ha hb
        refine ⟨s * recFactor (1/10) items.length i,
                s * recFactor (1/10) items.length j,
                hstep i a ha, hstep j b hb, ?_⟩
        exact mul_le_mul_of_nonneg_left
          (recFactor_mono items.length (by norm_num) hij h2) hs
      · intro a ha
        rw [hstep (items.length - 1) a ha, recFactor_last h2, mul_one]

/-- Witness for C7 at concrete inputs: the last of two equal-score `high`
items keeps its pre-decay score, and a singleton list is untouched. -/
theorem applyRecencyBias_spec_witness :
    ({ id := "1", source := "h", content := "b", value := "b", tokens := 10,
       priority := .high, score := .fin 100, index := 1 } : Item).score =
      JScore.fin 100 ∧
    applyRecencyBias
      [{ id := "0", source := "h", content := "a", value := "a", tokens := 10,
         priority := .high, score := .fin 100, index := 0 }] (1/10) =
      [{ id := "0", source := "h", content := "a", value := "a", tokens := 10,
         priority := .high, score := .fin 100, index := 0 }] :=
  ⟨(applyRecencyBias_spec.2.2
      [{ id := "0", source := "h", content := "a", value := "a", tokens := 10,
         priority := .high, score := .fin 100, index := 0 },
       { id := "1", source := "h", content := "b", value := "b", tokens := 10,
         priority := .high, score := .fin 100, index := 1 }]
      100 (by norm_num) (by decide)).2
    { id := "1", source := "h", content := "b", value := "b", tokens := 10,
      priority := .high, score := .fin 100, index := 1 }
    (by simp [applyRecencyBias, recencyMap, recStep, recFactor, JScore.scale]
        norm_num),
   applyRecencyBias_spec.1 _ (1/10) (by decide)⟩

/-! ## Lemmas about `applyPlacement` -/

theorem classify_eq (items : List Item) :
    classify items =
      (items.filter (fun i => i.source = "system"),
       items.filter (fun i => i.source = "query"),
       items.filter (fun i => i.source = "history"),
       items.filter (fun i =>
         ¬ i.source = "system" ∧ ¬ i.source = "query" ∧
           ¬ i.source = "history")) := by
  induction items with
  | nil => rfl
  | cons it l ih =>
    by_cases h1 : it.source = "system"
    · simp [classify, h1, ih, List.filter_cons]
    · by_cases h2 : it.source = "query"
      · simp [classify, h1, h2, ih, List.filter_cons]
      · by_cases h3 : it.source = "history"
        · simp [classify, h1, h2, h3, ih, List.filter_cons]
        · simp [classify, h1, h2, h3, ih, List.filter_cons]

theorem classify_perm (items : List Item) :
    ((classify items).1 ++ ((classify items).2.1 ++
      ((classify items).2.2.1 ++ (classify items).2.2.2))).Perm items := by
  induction items with
  | nil => rfl
  | cons it l ih =>
    by_cases h1 : it.source = "system"
    · simpa [classify, h1] using ih.cons it
    · by_cases h2 : it.source = "query"
      · simp only [classify, if_neg h1, if_pos h2, List.cons_append]
        exact List.Perm.trans List.perm_middle (ih.cons it)
      · by_cases h3 : it.source = "history"
        · simp only [classify, if_neg h1, if_neg h2, if_pos h3, List.cons_append]
          refine List.Perm.trans (List.Perm.append_left _ List.perm_middle) ?_
          exact List.Perm.trans List.perm_middle (ih.cons it)
        · simp only [classify, if_neg h1, if_neg h2, if_neg h3, List.cons_append]
          refine List.Perm.trans
            (List.Perm.append_left _ (List.Perm.append_left _ List.perm_middle)) ?_
          refine List.Perm.trans (List.Perm.append_left _ List.perm_middle) ?_
          exact List.Perm.trans List.perm_middle (ih.cons it)

theorem altSplit_perm : ∀ l : List Item, ((altSplit l).1 ++ (altSplit l).2).Perm l := by
  intro l
  induction l with
  | nil => rfl
  | cons x xs ih =>
    simp only [altSplit, List.cons_append]
    exact (List.perm_append_comm.trans ih).cons x

theorem prefix_block_lt {α : Type} (l A B : List α) (hl : l = A ++ B)
    (P : α → Prop)
    (hA : ∀ x ∈ A, P x) (hB : ∀ x ∈ B, ¬ P x)
    (i j : Fin l.length)
    (hi : P (l.get i)) (hj : ¬ P (l.get j)) : (i : ℕ) < (j : ℕ) := by
  subst hl
  have hiA : (i : ℕ) < A.length := by
    by_contra h
    push_neg at h
    have hmem : (A ++ B).get i ∈ B := by
      rw [List.get_eq_getElem, List.getElem_append_right h]
      exact List.getElem_mem _
    exact (hB _ hmem) hi
  have hjB : A.length ≤ (j : ℕ) := by
    by_contra h
    push_neg at h
    have hmem : (A ++ B).get j ∈ A := by
      rw [List.get_eq_getElem, List.getElem_append_left h]
      exact List.getElem_mem _
    exact hj (hA _ hmem)
  omega

theorem suffix_block_lt {α : Type} (l A B : List α) (hl : l = A ++ B)
    (P : α → Prop)
    (hA : ∀ x ∈ A, ¬ P x) (hB : ∀ x ∈ B, P x)
    (i j : Fin l.length)
    (hi : P (l.get i)) (hj : ¬ P (l.get j)) : (j : ℕ) < (i : ℕ) := by
  subst hl
  have hiA : A.length ≤ (i : ℕ) := by
    by_contra h
    push_neg at h
    have hmem : (A ++ B).get i ∈ A := by
      rw [List.get_eq_getElem, List.getElem_append_left h]
      exact List.getElem_mem _
    exact (hA _ hmem) hi
  have hjB : (j : ℕ) < A.length := by
    by_contra h
    push_neg at h
    have hmem : (A ++ B).get j ∈ B := by
      rw [List.get_eq_getElem, List.getElem_append_right h]
      exact List.getElem_mem _
    exact hj (hB _ hmem)
  omega

theorem map_packedCore_toPacked (p : Placement) (l : List Item) :
    (l.map (toPacked p)).map packedCore = l.map itemCore := by
  induction l with
  | nil => rfl
  | cons x xs ih => simp only [List.map_cons, ih]; rfl

theorem applyPlacement_blocks (items : List Item) :
    applyPlacement items =
      (items.filter (fun i => i.source = "system")).map (toPacked .beginning) ++
        (altSplit ((items.filter (fun i => isFloating i)).insertionSort
          restLE)).1.map (toPacked .beginning) ++
        (altSplit ((items.filter (fun i => isFloating i)).insertionSort
          restLE)).2.reverse.map (toPacked .middle) ++
        ((items.filter (fun i => i.source = "history")).insertionSort idxLE).map
          (toPacked .sEnd) ++
        (items.filter (fun i => i.source = "query")).map (toPacked .sEnd) := by
  have hc := classify_eq items
  unfold applyPlacement
  rw [hc]
  rfl

theorem mem_floating_blocks {items : List Item} {x : Item}
    (hx : x ∈ (altSplit ((items.filter (fun i => isFloating i)).insertionSort
        restLE)).1 ∨
      x ∈ (altSplit ((items.filter (fun i => isFloating i)).insertionSort
        restLE)).2.reverse) :
    isFloating x := by
  have hx' : x ∈ (items.filter (fun i => isFloating i)).insertionSort restLE := by
    rcases hx with hx | hx
    · exact (altSplit_perm _).subset (List.mem_append_left _ hx)
    · exact (altSplit_perm _).subset
        (List.mem_append_right _ (List.mem_reverse.1 hx))
  have := (List.perm_insertionSort restLE _).subset hx'
  simpa using (List.mem_filter.1 this).2

/-- C6: `applyPlacement` is a pure rearrangement — its output is a
permutation of its input (modulo the added placement tag) in the block
order system ++ floating-evens ++ reversed-floating-odds ++ history ++
query; every `system` item precedes every non-`system` item, every
`query` item follows every non-`query` item, and the `history` items
appear sorted by ascending original index regardless of score. -/
theorem applyPlacement_invariants (items : List Item) :
    ((applyPlacement items).map packedCore).Perm (items.map itemCore) ∧
    applyPlacement items =
      (items.filter (fun i => i.source = "system")).map (toPacked .beginning) ++
        (altSplit ((items.filter (fun i => isFloating i)).insertionSort
          restLE)).1.map (toPacked .beginning) ++
        (altSplit ((items.filter (fun i => isFloating i)).insertionSort
          restLE)).2.reverse.map (toPacked .middle) ++
        ((items.filter (fun i => i.source = "history")).insertionSort idxLE).map
          (toPacked .sEnd) ++
        (items.filter (fun i => i.source = "query")).map (toPacked .sEnd) ∧
    (∀ i j : Fin (applyPlacement items).length,
      ((applyPlacement items).get i).source = "system" →
      ¬ ((applyPlacement items).get j).source = "system" →
      (i : ℕ) < (j : ℕ)) ∧
    (∀ i j : Fin (applyPlacement items).length,
      ((applyPlacement items).get i).source = "query" →
      ¬ ((applyPlacement items).get j).source = "query" →
      (j : ℕ) < (i : ℕ)) ∧
    (applyPlacement items).filter (fun p => p.source = "history") =
      ((items.filter (fun i => i.source = "history")).insertionSort idxLE).map
        (toPacked .sEnd) ∧
    List.Sorted idxLE
      ((items.filter (fun i => i.source = "history")).insertionSort idxLE) := by
  have hblocks := applyPlacement_blocks items
  set sys := items.filter (fun i => i.source = "system") with hsys
  set qry := items.filter (fun i => i.source = "query") with hqry
  set hist := items.filter (fun i => i.source = "history") with hhist
  set rst := items.filter (fun i => isFloating i) with hrst
  set rst' := rst.insertionSort restLE with hrst'
  set hist' := hist.insertionSort idxLE with hhist'
  set bgn := (altSplit rst').1 with hbgn
  set mid := (altSplit rst').2 with hmid
  -- membership facts
  have hsysMem : ∀ x ∈ sys, x.source = "system" := by
    intro x hx; simpa using (List.mem_filter.1 hx).2
  have hqryMem : ∀ x ∈ qry, x.source = "query" := by
    intro x hx; simpa using (List.mem_filter.1 hx).2
  have hhistMem : ∀ x ∈ hist', x.source = "history" := by
    intro x hx
    have := (List.perm_insertionSort idxLE hist).subset hx
    simpa using (List.mem_filter.1 this).2
  have hbgnMem : ∀ x ∈ bgn, isFloating x :=
    fun x hx => mem_floating_blocks (Or.inl hx)
  have hmidMem : ∀ x ∈ mid.reverse, isFloating x :=
    fun x hx => mem_floating_blocks (Or.inr hx)
  refine ⟨?_, hblocks, ?_, ?_, ?_, List.sorted_insertionSort idxLE hist⟩
  · -- permutation
    rw [hblocks]
    simp only [List.map_append, map_packedCore_toPacked]
    have hP : (sys ++ (bgn ++ (mid.reverse ++ (hist' ++ qry)))).Perm items := by
      have hbm : (bgn ++ mid.reverse).Perm rst := by
        refine (List.Perm.append_left bgn (List.reverse_perm mid)).trans ?_
        exact (altSplit_perm rst').trans (List.perm_insertionSort restLE rst)
      have hcomm : (rst ++ (hist ++ qry)).Perm (qry ++ (hist ++ rst)) := by
        refine List.perm_append_comm.trans ?_
        rw [List.append_assoc]
        refine List.perm_append_comm.trans ?_
        rw [List.append_assoc]
        exact List.Perm.append_left _ List.perm_append_comm
      have hmain : (bgn ++ (mid.reverse ++ (hist' ++ qry))).Perm
          (qry ++ (hist ++ rst)) := by
        rw [← List.append_assoc]
        refine (List.Perm.append hbm
          (List.Perm.append (List.perm_insertionSort idxLE hist)
            (List.Perm.refl qry))).trans ?_
        exact hcomm
      have hcp := classify_perm items
      rw [classify_eq items] at hcp
      exact (List.Perm.append_left sys hmain).trans hcp
    have := hP.map itemCore
    simpa [List.map_append] using this
  · -- system items first
    intro i j hi hj
    refine prefix_block_lt (applyPlacement items)
      (sys.map (toPacked .beginning))
      (bgn.map (toPacked .beginning) ++ mid.reverse.map (toPacked .middle) ++
        hist'.map (toPacked .sEnd) ++ qry.map (toPacked .sEnd))
      (by rw [hblocks]; simp [List.append_assoc])
      (fun p => p.source = "system") ?_ ?_ i j hi hj
    · intro x hx
      obtain ⟨a, ha, rfl⟩ := List.mem_map.1 hx
      exact hsysMem a ha
    · intro x hx
      rcases List.mem_append.1 hx with hx | hx
      · rcases List.mem_append.1 hx with hx | hx
        · rcases List.mem_append.1 hx with hx | hx
          · obtain ⟨a, ha, rfl⟩ := List.mem_map.1 hx
            exact (hbgnMem a ha).1
          · obtain ⟨a, ha, rfl⟩ := List.mem_map.1 hx
            exact (hmidMem a ha).1
        · obtain ⟨a, ha, rfl⟩ := List.mem_map.1 hx
          simp [toPacked, hhistMem a ha]
      · obtain ⟨a, ha, rfl⟩ := List.mem_map.1 hx
        simp [toPacked, hqryMem a ha]
  · -- query items last
    intro i j hi hj
    refine suffix_block_lt (applyPlacement items)
      (sys.map (toPacked .beginning) ++ bgn.map (toPacked .beginning) ++
        mid.reverse.map (toPacked .middle) ++ hist'.map (toPacked .sEnd))
      (qry.map (toPacked .sEnd))
      (by rw [hblocks])
      (fun p => p.source = "query") ?_ ?_ i j hi hj
    · intro x hx
      rcases List.mem_append.1 hx with hx | hx
      · rcases List.mem_append.1 hx with hx | hx
        · rcases List.mem_append.1 hx with hx | hx
          · obtain ⟨a, ha, rfl⟩ := List.mem_map.1 hx
            simp [toPacked, hsysMem a ha]
          · obtain ⟨a, ha, rfl⟩ := List.mem_map.1 hx
            exact (hbgnMem a ha).2.1
        · obtain ⟨a, ha, rfl⟩ := List.mem_map.1 hx
          exact (hmidMem a ha).2.1
      · obtain ⟨a, ha, rfl⟩ := List.mem_map.1 hx
        simp [toPacked, hhistMem a ha]
    · intro x hx
      obtain ⟨a, ha, rfl⟩ := List.mem_map.1 hx
      exact hqryMem a ha
  · -- history subsequence
    rw [hblocks]
    simp only [List.filter_append, List.filter_map]
    have e1 : sys.filter ((fun p => p.source = "history") ∘ toPacked .beginning) = [] :=
      List.filter_eq_nil_iff.2 (fun a ha => by
        simp [Function.comp, toPacked, hsysMem a ha])
    have e2 : bgn.filter ((fun p => p.source = "history") ∘ toPacked .beginning) = [] :=
      List.filter_eq_nil_iff.2 (fun a ha => by
        have := (hbgnMem a ha).2.2
        simp [Function.comp, toPacked, this])
    have e3 : mid.reverse.filter ((fun p => p.source = "history") ∘ toPacked .middle) = [] :=
      List.filter_eq_nil_iff.2 (fun a ha => by
        have := (hmidMem a ha).2.2
        simp [Function.comp, toPacked, this])
    have e4 : hist'.filter ((fun p => p.source = "history") ∘ toPacked .sEnd) = hist' :=
      List.filter_eq_self.2 (fun a ha => by
        simp [Function.comp, toPacked, hhistMem a ha])
    have e5 : qry.filter ((fun p => p.source = "history") ∘ toPacked .sEnd) = [] :=
      List.filter_eq_nil_iff.2 (fun a ha => by
        simp [Function.comp, toPacked, hqryMem a ha])
    rw [e1, e2, e3, e4, e5]
    simp

/-- Witness for C6 at a concrete input: a `system` item and a floating
item; the output is a permutation of the input and the `system` item
(position 0) precedes the non-`system` item (position 1). -/
theorem applyPlacement_invariants_witness :
    ((applyPlacement
        [{ id := "s", source := "system", content := "s", value := "s",
           tokens := 1, priority := .required, score := .inf, index := 0 },
         { id := "r", source := "rag", content := "r", value := "r",
           tokens := 1, priority := .low, score := .fin 1, index := 0 }]).map
      packedCore).Perm
      (([{ id := "s", source := "system", content := "s", value := "s",
           tokens := 1, priority := .required, score := .inf, index := 0 },
         { id := "r", source := "rag", content := "r", value := "r",
           tokens := 1, priority := .low, score := .fin 1, index := 0 }] :
        List Item).map itemCore) ∧
    (0 : ℕ) < (1 : ℕ) :=
  ⟨(applyPlacement_invariants _).1,
   (applyPlacement_invariants
      [{ id := "s", source := "system", content := "s", value := "s",
         tokens := 1, priority := .required, score := .inf, index := 0 },
       { id := "r", source := "rag", content := "r", value := "r",
         tokens := 1, priority := .low, score := .fin 1, index := 0 }]).2.2.1
    ⟨0, by decide⟩ ⟨1, by decide⟩ (by decide) (by decide)⟩

/-- C5: for inputs with no `system`/`query`/`history` item, `applyPlacement`
sorts descending by score, sends even ranks to a `beginning`-tagged block
in rank order and odd ranks to a reversed `middle`-tagged block; for five
floating items scored 90/70/50/30/10 the floating block order is
90, 50, 10, 30, 70. -/
theorem applyPlacement_floating_arrangement :
    (∀ items : List Item, (∀ i ∈ items, isFloating i) →
      applyPlacement items =
        (altSplit (items.insertionSort restLE)).1.map (toPacked .beginning) ++
          (altSplit (items.insertionSort restLE)).2.reverse.map
            (toPacked .middle)) ∧
    (applyPlacement
        [{ id := "a", source := "rag", content := "a", value := "a",
           tokens := 1, priority := .medium, score := .fin 90, index := 0 },
         { id := "b", source := "rag", content := "b", value := "b",
           tokens := 1, priority := .medium, score := .fin 70, index := 1 },
         { id := "c", source := "rag", content := "c", value := "c",
           tokens := 1, priority := .medium, score := .fin 50, index := 2 },
         { id := "d", source := "rag", content := "d", value := "d",
           tokens := 1, priority := .medium, score := .fin 30, index := 3 },
         { id := "e", source := "rag", content := "e", value := "e",
           tokens := 1, priority := .medium, score := .fin 10, index := 4 }]).map
      (fun p => (p.score, p.placement)) =
      [(.fin 90, .beginning), (.fin 50, .beginning), (.fin 10, .beginning),
       (.fin 30, .middle), (.fin 70, .middle)] := by
  constructor
  · intro items hfloat
    rw [applyPlacement_blocks]
    have h1 : items.filter (fun i => i.source = "system") = [] :=
      List.filter_eq_nil_iff.2 (fun a ha => by simp [(hfloat a ha).1])
    have h2 : items.filter (fun i => i.source = "query") = [] :=
      List.filter_eq_nil_iff.2 (fun a ha => by simp [(hfloat a ha).2.1])
    have h3 : items.filter (fun i => i.source = "history") = [] :=
      List.filter_eq_nil_iff.2 (fun a ha => by simp [(hfloat a ha).2.2])
    have h4 : items.filter (fun i => isFloating i) = items :=
      List.filter_eq_self.2 (fun a ha => by simpa using hfloat a ha)
    rw [h1, h2, h3, h4]
    simp
  · rfl

/-- Witness for C5: the general floating-block equation applied at the
five-item example. -/
theorem applyPlacement_floating_arrangement_witness :
    applyPlacement
        [{ id := "a", source := "rag", content := "a", value := "a",
           tokens := 1, priority := .medium, score := .fin 90, index := 0 },
         { id := "e", source := "rag", content := "e", value := "e",
           tokens := 1, priority := .medium, score := .fin 10, index := 4 }] =
      (altSplit (([{ id := "a", source := "rag", content := "a", value := "a",
                     tokens := 1, priority := .medium, score := .fin 90,
                     index := 0 },
                   { id := "e", source := "rag", content := "e", value := "e",
                     tokens := 1, priority := .medium, score := .fin 10,
                     index := 4 }] : List Item).insertionSort restLE)).1.map
          (toPacked .beginning) ++
        (altSplit (([{ id := "a", source := "rag", content := "a", value := "a",
                       tokens := 1, priority := .medium, score := .fin 90,
                       index := 0 },
                     { id := "e", source := "rag", content := "e", value := "e",
                       tokens := 1, priority := .medium, score := .fin 10,
                       index := 4 }] : List Item).insertionSort
            restLE)).2.reverse.map (toPacked .middle) :=
  applyPlacement_floating_arrangement.1 _ (by decide)

/-! ## Lemmas about `enforceConstraints` -/

theorem availLookup_id {avail : List Item} {k : String} {d : Item}
    (h : availLookup avail k = some d) : d.id = k := by
  have main : ∀ (l : List Item) (acc : Option Item),
      (∀ x : Item, acc = some x → x.id = k) →
      (∀ x : Item, l.foldl (fun a i => if i.id = k then some i else a) acc =
        some x → x.id = k) := by
    intro l
    induction l with
    | nil => intro acc hacc x hx; exact hacc x hx
    | cons y ys ih =>
      intro acc hacc x hx
      refine ih _ ?_ x hx
      intro z hz
      have hz' : (if y.id = k then some y else acc) = some z := hz
      by_cases hy : y.id = k
      · rw [if_pos hy] at hz'
        cases hz'; exact hy
      · rw [if_neg hy] at hz'
        exact hacc z hz'
  exact main avail none (by intro x hx; cases hx) d h

theorem removeFirst_map_id (k : String) :
    ∀ l : List Item,
      (removeFirst (fun i => i.id = k) l).map Item.id = (l.map Item.id).erase k := by
  intro l
  induction l with
  | nil => rfl
  | cons x xs ih =>
    by_cases hx : x.id = k
    · simp [removeFirst, hx, List.erase_cons]
    · simp [removeFirst, hx, List.erase_cons, ih]

theorem removeFirst_sum (p : Item → Bool) :
    ∀ (l : List Item) (t : Item), l.find? p = some t →
      sumTokens (removeFirst p l) = sumTokens l - t.tokens := by
  intro l
  induction l with
  | nil => intro t ht; cases ht
  | cons x xs ih =>
    intro t ht
    cases hp : p x
    · rw [List.find?_cons_of_neg _ (by simp [hp])] at ht
      simp only [removeFirst, hp, Bool.false_eq_true, if_false]
      rw [sumTokens_cons, sumTokens_cons, ih t ht]
      ring
    · rw [List.find?_cons_of_pos _ hp] at ht
      cases ht
      simp only [removeFirst, hp, if_true]
      rw [sumTokens_cons]
      ring

theorem toFinset_map_append (inc : List Item) (dep : Item) :
    ((inc ++ [dep]).map Item.id).toFinset =
      insert dep.id (inc.map Item.id).toFinset := by
  ext x
  simp [or_comm]

theorem toFinset_map_removeFirst {inc : List Item} {k : String}
    (hnd : (inc.map Item.id).Nodup) :
    ((removeFirst (fun i => i.id = k) inc).map Item.id).toFinset =
      (inc.map Item.id).toFinset.erase k := by
  rw [removeFirst_map_id]
  ext x
  simp [List.Nodup.mem_erase_iff hnd, and_comm]

theorem ecStep_canonical (avail : List Item) (b : Int) (inc ad rm : List Item)
    (c : Constraint) (hnd : (inc.map Item.id).Nodup) :
    ecStep avail b
      { included := inc, ids := (inc.map Item.id).toFinset,
        tokens := sumTokens inc, added := ad, removed := rm } c =
      { included := (ecSpecStep inc avail c b).1,
        ids := ((ecSpecStep inc avail c b).1.map Item.id).toFinset,
        tokens := sumTokens (ecSpecStep inc avail c b).1,
        added := ad ++ (ecSpecStep inc avail c b).2.1,
        removed := rm ++ (ecSpecStep inc avail c b).2.2 } ∧
    ((ecSpecStep inc avail c b).1.map Item.id).Nodup := by
  unfold ecStep ecSpecStep
  dsimp only
  by_cases h1 : ∃ i ∈ inc, i.id = c.ifIncluded
  · have h1' : ¬ c.ifIncluded ∉ (inc.map Item.id).toFinset := by
      simp only [List.mem_toFinset, List.mem_map, not_not]
      obtain ⟨i, hi, hid⟩ := h1
      exact ⟨i, hi, hid⟩
    rw [if_neg h1', if_neg (not_not.2 h1)]
    by_cases h2 : ∃ i ∈ inc, i.id = c.thenRequire
    · have h2' : c.thenRequire ∈ (inc.map Item.id).toFinset := by
        simp only [List.mem_toFinset, List.mem_map]
        obtain ⟨i, hi, hid⟩ := h2
        exact ⟨i, hi, hid⟩
      rw [if_pos h2', if_pos h2]
      exact ⟨by simp, hnd⟩
    · have h2' : c.thenRequire ∉ (inc.map Item.id).toFinset := by
        simp only [List.mem_toFinset, List.mem_map]
        intro ⟨i, hi, hid⟩
        exact h2 ⟨i, hi, hid⟩
      rw [if_neg h2', if_neg h2]
      cases hl : availLookup avail c.thenRequire with
      | none => exact ⟨by simp, hnd⟩
      | some dep =>
        dsimp only
        have hdep : dep.id = c.thenRequire := availLookup_id hl
        by_cases hfit : sumTokens inc + dep.tokens ≤ b
        · rw [if_pos hfit, if_pos hfit]
          constructor
          · simp [toFinset_map_append, sumTokens_append, sumTokens_cons,
              sumTokens_nil, Finset.union_comm, Finset.insert_eq]
          · rw [List.map_append]
            refine List.Nodup.append hnd (by simp) ?_
            intro x hx hx'
            simp only [List.map_cons, List.map_nil, List.mem_singleton] at hx'
            subst hx'
            obtain ⟨i, hi, hid⟩ := List.mem_map.1 hx
            exact h2 ⟨i, hi, by rw [hid, hdep]⟩
        · rw [if_neg hfit, if_neg hfit]
          cases hf : inc.find? (fun i => i.id = c.ifIncluded) with
          | none => exact ⟨by simp, hnd⟩
          | some trigger =>
            dsimp only
            have htrig : trigger.id = c.ifIncluded := by
              simpa using List.find?_some hf
            by_cases hreq : trigger.priority = .required
            · rw [if_pos hreq, if_pos hreq]
              exact ⟨by simp, hnd⟩
            · rw [if_neg hreq, if_neg hreq]
              constructor
              · rw [removeFirst_sum _ inc trigger hf,
                  toFinset_map_removeFirst hnd, htrig]
                simp
              · rw [removeFirst_map_id]
                exact hnd.erase _
  · have h1' : c.ifIncluded ∉ (inc.map Item.id).toFinset := by
      simp only [List.mem_toFinset, List.mem_map]
      intro ⟨i, hi, hid⟩
      exact h1 ⟨i, hi, hid⟩
    rw [if_pos h1', if_pos h1]
    exact ⟨by simp, hnd⟩

theorem ecGo_spec (avail : List Item) (b : Int) :
    ∀ (cs : List Constraint) (inc : List Item),
      (inc.map Item.id).Nodup → ∀ (ad rm : List Item),
      ecGo avail b
        { included := inc, ids := (inc.map Item.id).toFinset,
          tokens := sumTokens inc, added := ad, removed := rm } cs =
        { included := (ecFold avail b inc cs).1,
          ids := ((ecFold avail b inc cs).1.map Item.id).toFinset,
          tokens := sumTokens (ecFold avail b inc cs).1,
          added := ad ++ (ecFold avail b inc cs).2.1,
          removed := rm ++ (ecFold avail b inc cs).2.2 } := by
  intro cs
  induction cs with
  | nil => intro inc hnd ad rm; simp [ecGo, ecFold]
  | cons c cs ih =>
    intro inc hnd ad rm
    obtain ⟨hstep, hnd'⟩ := ecStep_canonical avail b inc ad rm c hnd
    rw [ecGo, hstep,
      ih (ecSpecStep inc avail c b).1 hnd' (ad ++ (ecSpecStep inc avail c b).2.1)
        (rm ++ (ecSpecStep inc avail c b).2.2)]
    simp [ecFold, List.append_assoc]

theorem enforceConstraints_eq_ecFold (inc avail : List Item)
    (cs : List Constraint) (b : Int) (hnd : (inc.map Item.id).Nodup) :
    enforceConstraints inc avail cs b = ecFold avail b inc cs := by
  cases cs with
  | nil => rfl
  | cons c cs =>
    unfold enforceConstraints
    rw [if_neg (by simp)]
    dsimp only
    rw [ecGo_spec avail b (c :: cs) inc hnd [] []]
    simp

/-- C4: `enforceConstraints` processes the constraint list sequentially in
declaration order, re-evaluating each constraint against the current
state.  One step (`ecSpecStep`) skips a constraint whose trigger is not
admitted, whose dependency is already admitted, or whose dependency is
absent from the pool; otherwise it admits the dependency when the running
total plus its tokens stays within budget (recording it in `added`), and
otherwise evicts a non-`required` trigger (recording it in `removed`,
surfaced by `pack` with reason `"constraint dependency unavailable"`),
leaving a `required` trigger in place. -/
theorem enforceConstraints_sequential_spec (inc avail : List Item) (b : Int) :
    enforceConstraints inc avail [] b = (inc, [], []) ∧
    (∀ (c : Constraint) (cs : List Constraint), (inc.map Item.id).Nodup →
      enforceConstraints inc avail (c :: cs) b =
        ((enforceConstraints (ecSpecStep inc avail c b).1 avail cs b).1,
         (ecSpecStep inc avail c b).2.1 ++
           (enforceConstraints (ecSpecStep inc avail c b).1 avail cs b).2.1,
         (ecSpecStep inc avail c b).2.2 ++
           (enforceConstraints (ecSpecStep inc avail c b).1 avail cs b).2.2)) ∧
    (∀ i : Item, (constraintDropOf i).reason = "constraint dependency unavailable") := by
  refine ⟨rfl, ?_, fun _ => rfl⟩
  intro c cs hnd
  have hnd' := (ecStep_canonical avail b inc [] [] c hnd).2
  rw [enforceConstraints_eq_ecFold inc avail _ b hnd,
    enforceConstraints_eq_ecFold _ avail cs b hnd']
  simp [ecFold]

/-- Witness for C4: a trigger of cost 50 with a dependency of cost 50 and
budget 200 — the dependency is pulled in and recorded as added. -/
theorem enforceConstraints_sequential_spec_witness :
    enforceConstraints
        [{ id := "t", source := "tools", content := "t", value := "t",
           tokens := 50, priority := .high, score := .fin 100, index := 0 }]
        [{ id := "d", source := "examples", content := "d", value := "d",
           tokens := 50, priority := .low, score := .fin 10, index := 0 }]
        [{ ifIncluded := "t", thenRequire := "d" }] 200 =
      ([{ id := "t", source := "tools", content := "t", value := "t",
          tokens := 50, priority := .high, score := .fin 100, index := 0 },
        { id := "d", source := "examples", content := "d", value := "d",
          tokens := 50, priority := .low, score := .fin 10, index := 0 }],
       [{ id := "d", source := "examples", content := "d", value := "d",
          tokens := 50, priority := .low, score := .fin 10, index := 0 }],
       []) :=
  (((enforceConstraints_sequential_spec
      [{ id := "t", source := "tools", content := "t", value := "t",
         tokens := 50, priority := .high, score := .fin 100, index := 0 }]
      [{ id := "d", source := "examples", content := "d", value := "d",
         tokens := 50, priority := .low, score := .fin 10, index := 0 }]
      200).2.1 { ifIncluded := "t", thenRequire := "d" } [] (by decide)).trans
    (by decide))

/-! ## Idempotence of `pack` -/

theorem overwrite_of_eraseScore_eq {a b : Item}
    (h : eraseScore a = eraseScore b) :
    { a with score := scorePriority a.priority } =
      { b with score := scorePriority b.priority } := by
  have key :
      ({ eraseScore a with score := scorePriority (eraseScore a).priority } : Item) =
        { eraseScore b with score := scorePriority (eraseScore b).priority } := by
    rw [h]
  exact key

theorem map_overwrite_of_eraseScore_eq :
    ∀ {l₁ l₂ : List Item}, l₁.map eraseScore = l₂.map eraseScore →
      l₁.map (fun it => { it with score := scorePriority it.priority }) =
        l₂.map (fun it => { it with score := scorePriority it.priority }) := by
  intro l₁
  induction l₁ with
  | nil => intro l₂ h; cases l₂ with
    | nil => rfl
    | cons y ys => cases h
  | cons x xs ih =>
    intro l₂ h
    cases l₂ with
    | nil => cases h
    | cons y ys =>
      simp only [List.map_cons, List.cons.injEq] at h ⊢
      exact ⟨overwrite_of_eraseScore_eq h.1, ih h.2⟩

theorem eraseScore_recStep (minFactor : ℚ) (total i : ℕ) (it : Item) :
    eraseScore (recStep minFactor total i it) = eraseScore it := by
  unfold recStep eraseScore
  split <;> rfl

theorem map_eraseScore_recencyMap (minFactor : ℚ) (total : ℕ) :
    ∀ (l : List Item) (i : ℕ),
      (recencyMap minFactor total i l).map eraseScore = l.map eraseScore := by
  intro l
  induction l with
  | nil => intro i; rfl
  | cons x xs ih =>
    intro i
    simp only [recencyMap, List.map_cons, eraseScore_recStep, ih]

theorem map_eraseScore_applyRecencyBias (l : List Item) (minFactor : ℚ) :
    (applyRecencyBias l minFactor).map eraseScore = l.map eraseScore := by
  unfold applyRecencyBias
  split
  · rfl
  · exact map_eraseScore_recencyMap minFactor l.length l 0

/-- The function `scoreSource` overwrites every score before reading anything
score-dependent, so its output is determined by the score-erased items. -/
theorem scoreSource_invariant (qt : Bool) (qs : String) (s : Source)
    (items' : List Item) (h : items'.map eraseScore = s.items.map eraseScore) :
    scoreSource qt qs { s with items := items' } = scoreSource qt qs s := by
  unfold scoreSource
  dsimp only
  rw [map_overwrite_of_eraseScore_eq h]

theorem map_eraseScore_of_pointwise (f : Item → Item)
    (hf : ∀ it, eraseScore (f it) = eraseScore it) (l : List Item) :
    (l.map f).map eraseScore = l.map eraseScore := by
  rw [List.map_map]
  exact List.map_eq_map_iff.mpr (fun a _ => hf a)

theorem eraseScore_scorerStep (f : Item → String → ℚ) (qs : String)
    (it : Item) : eraseScore (scorerStep f qs it) = eraseScore it := by
  unfold scorerStep
  split <;> rfl

theorem map_eraseScore_scoreSource (qt : Bool) (qs : String) (s : Source) :
    (scoreSource qt qs s).items.map eraseScore = s.items.map eraseScore := by
  have hbase : ∀ l : List Item,
      (l.map (fun it => { it with score := scorePriority it.priority })).map
        eraseScore = l.map eraseScore :=
    fun l => map_eraseScore_of_pointwise
      (fun it => { it with score := scorePriority it.priority })
      (fun _ => rfl) l
  unfold scoreSource
  dsimp only
  cases hsc : s.options.scorer with
  | none =>
    dsimp only
    split
    · rw [map_eraseScore_applyRecencyBias]
      exact hbase s.items
    · exact hbase s.items
  | some f =>
    dsimp only
    cases qt with
    | false =>
      rw [if_neg (by simp)]
      split
      · rw [map_eraseScore_applyRecencyBias]
        exact hbase s.items
      · exact hbase s.items
    | true =>
      rw [if_pos rfl]
      rw [map_eraseScore_of_pointwise (scorerStep f qs)
        (eraseScore_scorerStep f qs)]
      split
      · rw [map_eraseScore_applyRecencyBias]
        exact hbase s.items
      · exact hbase s.items

theorem scoreSource_idem (qt : Bool) (qs : String) (s : Source) :
    scoreSource qt qs (scoreSource qt qs s) = scoreSource qt qs s := by
  have hs : scoreSource qt qs s = { s with items := (scoreSource qt qs s).items } := by
    unfold scoreSource
    rfl
  conv_lhs => rw [hs]
  exact scoreSource_invariant qt qs s _ (map_eraseScore_scoreSource qt qs s)

theorem collectAndScoreCore_idem (qt : Bool) (qs : String)
    (sources : List Source) :
    collectAndScoreCore qt qs (sources.map (scoreSource qt qs)) =
      collectAndScoreCore qt qs sources := by
  unfold collectAndScoreCore
  rw [List.map_map]
  rw [List.map_eq_map_iff.mpr
    (fun s _ => show (scoreSource qt qs ∘ scoreSource qt qs) s = scoreSource qt qs s
      from scoreSource_idem qt qs s)]

/-- C9: two successive `pack` calls with the same query on the same
optimizer state yield identical results (items, stats, warnings and
dropped lists) and leave the state fixed: the in-place score mutation of
the first call cannot change the second call's outcome because every score
is recomputed from the item's priority at the start of each call. -/
theorem pack_idempotent (st : OptimizerState) (q : Option String) :
    pack (pack st q).2 q = pack st q := by
  have h2 : (pack st q).2 =
      { st with sources :=
          st.sources.map (scoreSource (jsTruthy q) (q.getD "")) } := rfl
  rw [h2]
  show packCore _ (jsTruthy q) (q.getD "") = packCore st (jsTruthy q) (q.getD "")
  unfold packCore
  dsimp only
  rw [collectAndScoreCore_idem]
  rfl

/-- C10: calling `pack` with the empty-string query is indistinguishable
from calling it with no query at all — the source tests the query for
truthiness, and the empty string is falsy, so no `query` item is appended
and no custom scorer runs. -/
theorem pack_empty_query_eq_pack_none (st : OptimizerState) :
    pack st (some "") = pack st none := rfl

end Snug
